import Mathlib

/-!
Verification of the Merkle directory materialization and archive-export
engine of bb-browser (`cmd/bb_browser/browser_service.go`).

The Go code is shallowly embedded: protobuf messages become structures,
the recursive tarball generator becomes a fuel-indexed Lean function that
threads the emitted entry list and the deduplication table explicitly,
and the storage backends become function parameters (`getDir` for
`getDirectory`, `getBlob` for blob reads).
-/

namespace BBBrowser

/-- A digest as embedded in a parent node (`remoteexecution.Digest`):
hash and size only, no instance name. -/
structure REDigest where
  hash : String
  sizeBytes : Int
deriving DecidableEq

/-- A fully qualified digest (`digest.Digest` from bb-storage):
instance name, hash and size. -/
structure Digest where
  instanceName : String
  hash : String
  sizeBytes : Int
deriving DecidableEq

/-- Error raised by digest derivation when the embedded reference is
malformed. -/
inductive DigestErr where
  | malformedDigest
deriving DecidableEq

instance (ε α : Type) [DecidableEq ε] [DecidableEq α] : DecidableEq (Except ε α) := fun a b =>
  match a, b with
  | .error e1, .error e2 =>
    if h : e1 = e2 then isTrue (by rw [h]) else isFalse (fun hc => by cases hc; exact h rfl)
  | .error e1, .ok a2 => isFalse (fun hc => by cases hc)
  | .ok a1, .error e2 => isFalse (fun hc => by cases hc)
  | .ok a1, .ok a2 =>
    if h : a1 = a2 then isTrue (by rw [h]) else isFalse (fun hc => by cases hc; exact h rfl)

/-- Modelled from the spec: `digest.Digest.NewDerivedDigest` of the external
bb-storage library (not part of this repository's sources) combines the
parent's instance name with the hash and size of a partial reference, and
"Fails with MalformedReference if the hash is empty or the size is
negative" (spec 4.1). -/
def Digest.newDerivedDigest (parent : Digest) (r : REDigest) : Except DigestErr Digest :=
  if r.hash = "" ∨ r.sizeBytes < 0 then .error .malformedDigest
  else .ok ⟨parent.instanceName, r.hash, r.sizeBytes⟩

/-- Modelled from the spec: `digest.Digest.GetKey(digest.KeyWithoutInstance)`
of the external bb-storage library: a string key formed from hash and size
only, dropping the instance name (spec section 3, "key without namespace"). -/
def Digest.keyWithoutInstance (d : Digest) : String :=
  d.hash ++ "-" ++ toString d.sizeBytes

/-- The deduplication key used by `generateTarballDirectory`:
`childDigest.GetKey(digest.KeyWithoutInstance)` with `"+x"` appended for
executable files and `"-x"` otherwise. -/
def dedupKey (d : Digest) (isExecutable : Bool) : String :=
  d.keyWithoutInstance ++ (if isExecutable then "+x" else "-x")

/-- `path.Join(directoryPath, name)` as used by the generator. For the
slash-free, dot-free names considered here Go's `path.Join` appends the
name after a separator, except that joining onto the empty root path
yields the bare name. -/
def pathJoin (p n : String) : String :=
  if p = "" then n else p ++ "/" ++ n

/-- `remoteexecution.DirectoryNode`: a named reference to a child
directory. -/
structure DirectoryNode where
  name : String
  digest : REDigest
deriving DecidableEq

/-- `remoteexecution.FileNode`: a named reference to file content plus the
executable bit. -/
structure FileNode where
  name : String
  digest : REDigest
  isExecutable : Bool
deriving DecidableEq

/-- `remoteexecution.SymlinkNode`: a name and a verbatim target string. -/
structure SymlinkNode where
  name : String
  target : String
deriving DecidableEq

/-- `remoteexecution.Directory`: ordered lists of child directory, file and
symlink nodes. -/
structure Directory where
  directories : List DirectoryNode
  files : List FileNode
  symlinks : List SymlinkNode
deriving DecidableEq

/-- One archive entry, as written by `tar.Writer.WriteHeader` (plus, for a
regular file, the blob streamed right after the header). Fixed header
fields that never vary are omitted: directory and symlink entries always
carry mode 0777, a regular entry carries mode 0777 when `exec` is true and
0666 otherwise. The `key` arguments of `reg` and `link` are ghost data
recording the deduplication key of the file node that produced the entry;
they are not part of the tar header bytes. -/
inductive Entry where
  | dir (name : String)
  | symlink (name target : String)
  | reg (name : String) (size : Int) (exec : Bool) (content : Digest) (key : String)
  | link (name linkname : String) (key : String)
deriving DecidableEq

/-- Reasons for which `generateTarballDirectory` returns a non-nil error.
`outOfFuel` is a modelling artifact: it marks that the recursion depth
exceeded the fuel bound, i.e. that the Go function (which has no depth
bound) would still be recursing. -/
inductive TarErr where
  | invalidDigest
  | directoryFetchFailed
  | blobFetchFailed
  | outOfFuel
deriving DecidableEq

/-- The `filesSeen` map of `generateTarball`: dedup key to first archive
path. Built only by inserting keys that are absent, so an association list
with first-match lookup models the Go map exactly. -/
def Seen := List (String × String)

instance : DecidableEq Seen := inferInstanceAs (DecidableEq (List (String × String)))

/-- State threaded through `generateTarballDirectory`: the archive entries
emitted so far (in emission order) and the `filesSeen` map. -/
structure GenState where
  entries : List Entry
  filesSeen : Seen
deriving DecidableEq

/-- The loop "Emit symlinks" of `generateTarballDirectory`: one symlink
entry per `SymlinkNode`, target copied verbatim. -/
def genSymlinkLoop (nodes : List SymlinkNode) (dirPath : String) (st : GenState) : GenState :=
  match nodes with
  | [] => st
  | node :: rest =>
      genSymlinkLoop rest dirPath
        { st with entries := st.entries ++ [.symlink (pathJoin dirPath node.name) node.target] }

/-- The loop "Emit regular files" of `generateTarballDirectory`: derive the
child digest, compute the dedup key, and either emit a hardlink to the
previously recorded path or emit a regular entry, stream the blob
(`getBlob` returns whether the read succeeded) and record the key. -/
def genFileLoop (getBlob : Digest → Bool) (dirDigest : Digest) (nodes : List FileNode)
    (dirPath : String) (st : GenState) : GenState × Option TarErr :=
  match nodes with
  | [] => (st, none)
  | node :: rest =>
    match dirDigest.newDerivedDigest node.digest with
    | .error _ => (st, some .invalidDigest)
    | .ok childDigest =>
      let childKey := dedupKey childDigest node.isExecutable
      let childPath := pathJoin dirPath node.name
      match st.filesSeen.lookup childKey with
      | some linkPath =>
          genFileLoop getBlob dirDigest rest dirPath
            { st with entries := st.entries ++ [.link childPath linkPath childKey] }
      | none =>
          let st1 : GenState :=
            { st with entries :=
                st.entries ++ [.reg childPath node.digest.sizeBytes node.isExecutable childDigest childKey] }
          if getBlob childDigest then
            genFileLoop getBlob dirDigest rest dirPath
              { st1 with filesSeen := (childKey, childPath) :: st1.filesSeen }
          else (st1, some .blobFetchFailed)

/-- The loop "Emit child directories" of `generateTarballDirectory`: for
each `DirectoryNode` write its directory header, derive its digest, fetch
its `Directory` and recurse into it (through `recur`, the fuel-indexed
recursive call supplied by `genDir`) before moving to the next sibling. -/
def genDirLoop (getDir : Digest → Option Directory)
    (recur : Digest → Directory → String → GenState → GenState × Option TarErr)
    (dirDigest : Digest) (nodes : List DirectoryNode) (dirPath : String) (st : GenState) :
    GenState × Option TarErr :=
  match nodes with
  | [] => (st, none)
  | node :: rest =>
    let childPath := pathJoin dirPath node.name
    let st1 : GenState := { st with entries := st.entries ++ [.dir childPath] }
    match dirDigest.newDerivedDigest node.digest with
    | .error _ => (st1, some .invalidDigest)
    | .ok childDigest =>
      match getDir childDigest with
      | none => (st1, some .directoryFetchFailed)
      | some childDirectory =>
        match recur childDigest childDirectory childPath st1 with
        | (st2, some e) => (st2, some e)
        | (st2, none) => genDirLoop getDir recur dirDigest rest dirPath st2

/-- `generateTarballDirectory`: emit child directories (each header followed
by its recursively generated subtree), then symlinks, then regular files.
The traversal root itself is never emitted. `fuel` bounds the recursion
depth, which the Go code leaves unbounded: exhausted fuel marks a run the
Go program would continue deeper. -/
def genDir (getDir : Digest → Option Directory) (getBlob : Digest → Bool) :
    Nat → Digest → Directory → String → GenState → GenState × Option TarErr
  | 0, _, _, _, st => (st, some .outOfFuel)
  | fuel + 1, dirDigest, dir, dirPath, st =>
    match genDirLoop getDir (genDir getDir getBlob fuel) dirDigest dir.directories dirPath st with
    | (st1, some e) => (st1, some e)
    | (st1, none) =>
        genFileLoop getBlob dirDigest dir.files dirPath (genSymlinkLoop dir.symlinks dirPath st1)

/-- Result of `generateTarball`: either the tar and gzip writers were
closed normally (a well-formed archive), or the handler panicked with
`http.ErrAbortHandler`, aborting the connection after the entries emitted
so far. -/
inductive TarResult where
  | complete (entries : List Entry)
  | aborted (entries : List Entry)
deriving DecidableEq

/-- The entries that reached the consumer, in either outcome. -/
def TarResult.entries : TarResult → List Entry
  | .complete es => es
  | .aborted es => es

/-- `generateTarball`: run the recursive generator from the root (path `""`,
empty `filesSeen`); on success close the writers, on any error abort the
connection abnormally. -/
def generateTarball (getDir : Digest → Option Directory) (getBlob : Digest → Bool)
    (fuel : Nat) (dgst : Digest) (dir : Directory) : TarResult :=
  match genDir getDir getBlob fuel dgst dir "" ⟨[], []⟩ with
  | (st, some _) => .aborted st.entries
  | (st, none) => .complete st.entries

/-! ## Tree bundles and path resolution (`handleTree`) -/

/-- `remoteexecution.Tree`: a root `Directory` plus the flat list of its
transitive descendants. -/
structure Tree where
  root : Directory
  children : List Directory
deriving DecidableEq

/-- Errors surfaced by the path-resolution loop of `handleTree`:
`subdirectoryNotFound` is the HTTP 404 "Subdirectory in tree not found",
`inconsistentBundle` the HTTP 400 "Failed to find child node in tree", and
`invalidDerivedDigest` the HTTP 400 raised when `NewDerivedDigest` fails. -/
inductive ResolveErr where
  | subdirectoryNotFound
  | inconsistentBundle
  | invalidDerivedDigest
deriving DecidableEq

/-- The content digest recomputed by `handleTree` for one descendant: a
`digestGenerator` seeded from the tree digest hashes the serialized child,
so the resulting digest is the hash of `marshal child` together with its
byte count. `marshal` models `proto.Marshal` and `hashBytes` the hash
function of the digest generator; both are external to this repository. -/
def childDigestOf (marshal : Directory → List Nat) (hashBytes : List Nat → String)
    (child : Directory) : REDigest :=
  ⟨hashBytes (marshal child), ((marshal child).length : Int)⟩

/-- The `children` map of `handleTree`, keyed by the recomputed digest's
key without instance. Go map assignment overwrites, so prepending each
binding and using first-match lookup reproduces last-write-wins. -/
def buildChildren (marshal : Directory → List Nat) (hashBytes : List Nat → String)
    (cs : List Directory) : List (String × Directory) :=
  cs.foldl
    (fun m child =>
      (Digest.keyWithoutInstance
          ⟨"", (childDigestOf marshal hashBytes child).hash,
            (childDigestOf marshal hashBytes child).sizeBytes⟩,
        child) :: m)
    []

/-- The traversal loop of `handleTree`: for each path component scan the
current directory's `Directories` for a name match (404 on no match),
derive the child digest (400 on failure), and look the key up in the
children map (400 "Failed to find child node in tree" on absence). -/
def resolveComponents (childrenMap : List (String × Directory)) :
    List String → Digest → Directory → Except ResolveErr (Digest × Directory)
  | [], dgst, dir => .ok (dgst, dir)
  | component :: rest, dgst, dir =>
    match dir.directories.find? (fun node => component = node.name) with
    | none => .error .subdirectoryNotFound
    | some node =>
      match dgst.newDerivedDigest node.digest with
      | .error _ => .error .invalidDerivedDigest
      | .ok childDigest =>
        match childrenMap.lookup childDigest.keyWithoutInstance with
        | none => .error .inconsistentBundle
        | some childDirectory => resolveComponents childrenMap rest childDigest childDirectory

/-- Accumulating worker for `splitPathComponents`: `acc` holds the
characters of the current field in reverse. -/
def splitSlashAux : List Char → List Char → List String
  | [], [] => []
  | [], acc => [⟨acc.reverse⟩]
  | c :: cs, acc =>
    if c = '/' then
      match acc with
      | [] => splitSlashAux cs []
      | _ => ⟨acc.reverse⟩ :: splitSlashAux cs []
    else splitSlashAux cs (c :: acc)

/-- `strings.FieldsFunc(path, isSlash)`: the maximal nonempty runs of
non-slash characters, in order; empty components never appear. -/
def splitPathComponents (s : String) : List String :=
  splitSlashAux s.data []

/-- Path resolution of `handleTree`: build the children map from the
bundle, split the subdirectory path, and walk from the tree digest and the
bundle's root. -/
def resolvePath (marshal : Directory → List Nat) (hashBytes : List Nat → String)
    (treeDigest : Digest) (tree : Tree) (relativePath : String) :
    Except ResolveErr (Digest × Directory) :=
  resolveComponents (buildChildren marshal hashBytes tree.children)
    (splitPathComponents relativePath) treeDigest tree.root

/-! ## Log resolution (`getLogInfoForDigest`) -/

/-- Outcome of `contentAddressableStorageBlobAccess.Get(...).ToByteSlice`:
the raw log bytes, a NotFound error, or any other error. -/
inductive BlobGetResult where
  | ok (data : List Nat)
  | notFoundErr
  | otherErr
deriving DecidableEq

/-- The `logInfo` record rendered into the action page. `html` holds the
output of `terminal.Render`, modelled by the `render` parameter. -/
structure LogInfo where
  name : String
  digest : Digest
  tooLarge : Bool
  notFound : Bool
  html : List Nat
deriving DecidableEq

/-- The constant `maximumLogSizeBytes` of `getLogInfoForDigest`. -/
def maximumLogSizeBytes : Int := 100000

/-- `getLogInfoForDigest`: a zero recorded size means no log file is
present (no fetch, nil result); an oversized log is reported without a
fetch; otherwise the blob is fetched and rendered, with NotFound reported
in-band. The second component records whether a backend fetch occurred. -/
def getLogInfoForDigest (get : Digest → BlobGetResult) (render : List Nat → List Nat)
    (name : String) (dgst : Digest) : Except Unit (Option LogInfo) × Bool :=
  if dgst.sizeBytes = 0 then (.ok none, false)
  else if dgst.sizeBytes > maximumLogSizeBytes then
    (.ok (some ⟨name, dgst, true, false, []⟩), false)
  else
    match get dgst with
    | .ok data => (.ok (some ⟨name, dgst, false, false, render data⟩), true)
    | .notFoundErr => (.ok (some ⟨name, dgst, false, true, []⟩), true)
    | .otherErr => (.error (), true)

/-! ## Specification-side model of the emission order

The following definitions are written from the specification's words
(spec 4.4): a pre-order depth-first materialization in which the traversal
root is never emitted, each child `DirectoryNode`'s entry immediately
precedes its own subtree's entries (children in source order), followed by
one symlink entry per `SymlinkNode` with the target copied verbatim,
followed by the file entries under content deduplication. They return the
emitted entries compositionally (as a plain list per subtree) instead of
threading an accumulated archive, and are compared against the
implementation's `genDir`. -/

/-- Spec model: symlink entries of one directory, targets verbatim. -/
def specSymlinkEntries (nodes : List SymlinkNode) (dirPath : String) : List Entry :=
  nodes.map (fun node => .symlink (pathJoin dirPath node.name) node.target)

/-- Spec model: file entries of one directory under deduplication. The
first occurrence of a dedup key becomes a regular entry followed by its
streamed content, later occurrences become hardlinks to the recorded
path; a failed digest derivation or blob read aborts the operation. -/
def specFileEntries (getBlob : Digest → Bool) (dirDigest : Digest) (nodes : List FileNode)
    (dirPath : String) (seen : Seen) : List Entry × Seen × Option TarErr :=
  match nodes with
  | [] => ([], seen, none)
  | node :: rest =>
    match dirDigest.newDerivedDigest node.digest with
    | .error _ => ([], seen, some .invalidDigest)
    | .ok childDigest =>
      let childKey := dedupKey childDigest node.isExecutable
      let childPath := pathJoin dirPath node.name
      match seen.lookup childKey with
      | some linkPath =>
        match specFileEntries getBlob dirDigest rest dirPath seen with
        | (es, seen1, err) => (.link childPath linkPath childKey :: es, seen1, err)
      | none =>
        if getBlob childDigest then
          match specFileEntries getBlob dirDigest rest dirPath ((childKey, childPath) :: seen) with
          | (es, seen1, err) =>
            (.reg childPath node.digest.sizeBytes node.isExecutable childDigest childKey :: es,
              seen1, err)
        else
          ([.reg childPath node.digest.sizeBytes node.isExecutable childDigest childKey],
            seen, some .blobFetchFailed)

/-- Spec model: each child `DirectoryNode` contributes its own directory
entry immediately followed by its subtree's entries (produced by `recur`,
the fuel-indexed recursive call supplied by `specDir`); a failed digest
derivation or directory fetch aborts the operation after the entry. -/
def specDirLoop (getDir : Digest → Option Directory)
    (recur : Digest → Directory → String → Seen → List Entry × Seen × Option TarErr)
    (dirDigest : Digest) (nodes : List DirectoryNode) (dirPath : String) (seen : Seen) :
    List Entry × Seen × Option TarErr :=
  match nodes with
  | [] => ([], seen, none)
  | node :: rest =>
    let childPath := pathJoin dirPath node.name
    match dirDigest.newDerivedDigest node.digest with
    | .error _ => ([.dir childPath], seen, some .invalidDigest)
    | .ok childDigest =>
      match getDir childDigest with
      | none => ([.dir childPath], seen, some .directoryFetchFailed)
      | some childDirectory =>
        match recur childDigest childDirectory childPath seen with
        | (es, seen1, some e) => (.dir childPath :: es, seen1, some e)
        | (es, seen1, none) =>
          match specDirLoop getDir recur dirDigest rest dirPath seen1 with
          | (es2, seen2, err) => (.dir childPath :: (es ++ es2), seen2, err)

/-- Spec model: pre-order materialization of one directory. The root is
not emitted; child directory subtrees come first in source order, then
symlinks, then files. -/
def specDir (getDir : Digest → Option Directory) (getBlob : Digest → Bool) :
    Nat → Digest → Directory → String → Seen → List Entry × Seen × Option TarErr
  | 0, _, _, _, seen => ([], seen, some .outOfFuel)
  | fuel + 1, dirDigest, dir, dirPath, seen =>
    match specDirLoop getDir (specDir getDir getBlob fuel) dirDigest dir.directories dirPath seen with
    | (es, seen1, some e) => (es, seen1, some e)
    | (es, seen1, none) =>
      match specFileEntries getBlob dirDigest dir.files dirPath seen1 with
      | (fes, seen2, err) => (es ++ specSymlinkEntries dir.symlinks dirPath ++ fes, seen2, err)

/-! ## Deduplication bookkeeping predicates -/

/-- The names of the regular-file entries of `es` whose dedup key is `k`,
in emission order. -/
def regNames (k : String) (es : List Entry) : List String :=
  es.filterMap fun e =>
    match e with
    | .reg n _ _ _ kr => if kr = k then some n else none
    | _ => none

/-- The dedup key of a file-derived entry, if any. -/
def Entry.keyOf : Entry → Option String
  | .reg _ _ _ _ k => some k
  | .link _ _ k => some k
  | _ => none

/-- The dedup table obtained from `s` by recording every regular entry of
`es` in order. -/
def seenAfter (s : Seen) (es : List Entry) : Seen :=
  es.foldl (fun acc e => match e with | Entry.reg n _ _ _ k => (k, n) :: acc | _ => acc) s

/-- Every hardlink entry of `es` points at the path that the dedup table
(initially `s`, extended by the regular entries seen so far) records for
its key. -/
def linkSound : Seen → List Entry → Prop
  | _, [] => True
  | s, Entry.reg n _ _ _ k :: es => linkSound ((k, n) :: s) es
  | s, Entry.link _ ln k :: es => s.lookup k = some ln ∧ linkSound s es
  | s, _ :: es => linkSound s es

/-- Bindings of the dedup table are never dropped or overwritten. -/
def seenMono (s0 s1 : Seen) : Prop :=
  ∀ k p, s0.lookup k = some p → s1.lookup k = some p

/-- One traversal step emits at most one regular entry per dedup key: a key
already in the table gets no regular entry; a fresh key gets exactly the
regular entry the final table records for it, except that a run that ends
in an error may leave one regular entry for a key the table never
recorded (its blob read failed after the header was written). -/
def regOnce (s0 : Seen) (es : List Entry) (s1 : Seen) (err : Option TarErr) : Prop :=
  ∀ k, match s0.lookup k with
  | some _ => regNames k es = []
  | none =>
      regNames k es = (s1.lookup k).toList ∨
        (err.isSome ∧ s1.lookup k = none ∧ ∃ p, regNames k es = [p])

/-- All invariants relating a traversal segment's input table `s0`, emitted
entries `es`, output table `s1` and error to each other. -/
def RunRel (s0 : Seen) (es : List Entry) (s1 : Seen) (err : Option TarErr) : Prop :=
  seenMono s0 s1 ∧ regOnce s0 es s1 err ∧ linkSound s0 es ∧
    (err = none → s1 = seenAfter s0 es)

/-- Every regular entry's ghost key is the dedup key computed from its own
content digest and executable bit, as the generator computes it. -/
def wellKeyed (es : List Entry) : Prop :=
  ∀ n sz ex cd kk, Entry.reg n sz ex cd kk ∈ es → kk = dedupKey cd ex

/-- Sample root digest used in concrete scenarios. -/
def sampleDigest : Digest := ⟨"inst", "root", 10⟩

/-- Spec scenario for deduplication: two file nodes with the same digest
and the same (non-)executable bit. -/
def sampleDupDir : Directory := ⟨[], [⟨"a", ⟨"aa", 3⟩, false⟩, ⟨"b", ⟨"aa", 3⟩, false⟩], []⟩

/-- Spec scenario for distinct dedup keys: two file nodes with the same
digest but different executable bits. -/
def sampleMixedDir : Directory := ⟨[], [⟨"a", ⟨"aa", 3⟩, false⟩, ⟨"b", ⟨"aa", 3⟩, true⟩], []⟩

/-- A directory whose single child node derives back to a digest with the
same hash and size, producing a self-referencing digest graph. -/
def cycleDir : Directory := ⟨[⟨"loop", ⟨"self", 0⟩⟩], [], []⟩

/-- A fetch capability that returns `cycleDir` for every digest: every
directory transitively references itself. -/
def cycleGetDir : Digest → Option Directory := fun _ => some cycleDir

/-! ## Equivalence of the implementation with the spec-side model -/

theorem genSymlinkLoop_eq (nodes : List SymlinkNode) :
    ∀ (dirPath : String) (es : List Entry) (seen : Seen),
      genSymlinkLoop nodes dirPath ⟨es, seen⟩ =
        ⟨es ++ specSymlinkEntries nodes dirPath, seen⟩ := by
  induction nodes with
  | nil => intro dirPath es seen; simp [genSymlinkLoop, specSymlinkEntries]
  | cons node rest ih =>
    intro dirPath es seen
    simp only [genSymlinkLoop, specSymlinkEntries, List.map_cons]
    rw [ih]
    simp [specSymlinkEntries]

theorem genFileLoop_eq (getBlob : Digest → Bool) (dirDigest : Digest) (nodes : List FileNode) :
    ∀ (dirPath : String) (es : List Entry) (seen : Seen),
      genFileLoop getBlob dirDigest nodes dirPath ⟨es, seen⟩ =
        (⟨es ++ (specFileEntries getBlob dirDigest nodes dirPath seen).1,
          (specFileEntries getBlob dirDigest nodes dirPath seen).2.1⟩,
         (specFileEntries getBlob dirDigest nodes dirPath seen).2.2) := by
  induction nodes with
  | nil => intro dirPath es seen; simp [genFileLoop, specFileEntries]
  | cons node rest ih =>
    intro dirPath es seen
    simp only [genFileLoop, specFileEntries]
    cases h1 : dirDigest.newDerivedDigest node.digest with
    | error e => simp
    | ok childDigest =>
      simp only
      cases h2 : List.lookup (dedupKey childDigest node.isExecutable) seen with
      | some linkPath =>
        simp only [ih]
        rcases h3 : specFileEntries getBlob dirDigest rest dirPath seen with ⟨es1, seen1, err1⟩
        simp
      | none =>
        simp only
        cases h3 : getBlob childDigest with
        | true =>
          simp only [if_pos rfl, ih]
          rcases h4 : specFileEntries getBlob dirDigest rest dirPath
              ((dedupKey childDigest node.isExecutable, pathJoin dirPath node.name) :: seen) with
            ⟨es1, seen1, err1⟩
          simp
        | false => simp

theorem genDirLoop_eq (getDir : Digest → Option Directory)
    (recurG : Digest → Directory → String → GenState → GenState × Option TarErr)
    (recurS : Digest → Directory → String → Seen → List Entry × Seen × Option TarErr)
    (hrec : ∀ d dir p es seen, recurG d dir p ⟨es, seen⟩ =
      (⟨es ++ (recurS d dir p seen).1, (recurS d dir p seen).2.1⟩, (recurS d dir p seen).2.2))
    (dirDigest : Digest) (nodes : List DirectoryNode) :
    ∀ (dirPath : String) (es : List Entry) (seen : Seen),
      genDirLoop getDir recurG dirDigest nodes dirPath ⟨es, seen⟩ =
        (⟨es ++ (specDirLoop getDir recurS dirDigest nodes dirPath seen).1,
          (specDirLoop getDir recurS dirDigest nodes dirPath seen).2.1⟩,
         (specDirLoop getDir recurS dirDigest nodes dirPath seen).2.2) := by
  induction nodes with
  | nil => intro dirPath es seen; simp [genDirLoop, specDirLoop]
  | cons node rest ih =>
    intro dirPath es seen
    simp only [genDirLoop, specDirLoop]
    cases h1 : dirDigest.newDerivedDigest node.digest with
    | error e => simp
    | ok childDigest =>
      simp only
      cases h2 : getDir childDigest with
      | none => simp
      | some childDirectory =>
        simp only [hrec]
        rcases h3 : recurS childDigest childDirectory (pathJoin dirPath node.name) seen with
          ⟨es1, seen1, err1⟩
        cases err1 with
        | some e => simp
        | none =>
          simp only [ih]
          rcases h4 : specDirLoop getDir recurS dirDigest rest dirPath seen1 with
            ⟨es2, seen2, err2⟩
          simp

theorem genDir_eq (getDir : Digest → Option Directory) (getBlob : Digest → Bool) :
    ∀ (fuel : Nat) (dirDigest : Digest) (dir : Directory) (dirPath : String)
      (es : List Entry) (seen : Seen),
      genDir getDir getBlob fuel dirDigest dir dirPath ⟨es, seen⟩ =
        (⟨es ++ (specDir getDir getBlob fuel dirDigest dir dirPath seen).1,
          (specDir getDir getBlob fuel dirDigest dir dirPath seen).2.1⟩,
         (specDir getDir getBlob fuel dirDigest dir dirPath seen).2.2) := by
  intro fuel
  induction fuel with
  | zero => intro dirDigest dir dirPath es seen; simp [genDir, specDir]
  | succ fuel ih =>
    intro dirDigest dir dirPath es seen
    simp only [genDir, specDir]
    rw [genDirLoop_eq getDir (genDir getDir getBlob fuel) (specDir getDir getBlob fuel) ih]
    rcases h1 : specDirLoop getDir (specDir getDir getBlob fuel) dirDigest dir.directories
        dirPath seen with ⟨es1, seen1, err1⟩
    cases err1 with
    | some e => simp
    | none =>
      simp only
      rw [genSymlinkLoop_eq, genFileLoop_eq]
      rcases h2 : specFileEntries getBlob dirDigest dir.files dirPath seen1 with
        ⟨fes, seen2, err2⟩
      simp

theorem generateTarball_eq (getDir : Digest → Option Directory) (getBlob : Digest → Bool)
    (fuel : Nat) (dgst : Digest) (dir : Directory) :
    generateTarball getDir getBlob fuel dgst dir =
      match specDir getDir getBlob fuel dgst dir "" [] with
      | (es, _, some _) => .aborted es
      | (es, _, none) => .complete es := by
  have h := genDir_eq getDir getBlob fuel dgst dir "" [] []
  simp only [generateTarball, h]
  rcases hs : specDir getDir getBlob fuel dgst dir "" [] with ⟨es, seen1, err⟩
  cases err <;> simp

/-! ## Basic lemmas on the bookkeeping predicates -/

theorem lookup_cons (k k' : String) (v : String) (s : Seen) :
    List.lookup k ((k', v) :: s) = if k = k' then some v else List.lookup k s := by
  by_cases h : k = k'
  · subst h; simp [List.lookup]
  · have hb : (k == k') = false := beq_eq_false_iff_ne.mpr h
    simp [List.lookup, hb, h]

theorem regNames_nil (k : String) : regNames k [] = [] := rfl

theorem regNames_append (k : String) (es1 es2 : List Entry) :
    regNames k (es1 ++ es2) = regNames k es1 ++ regNames k es2 :=
  List.filterMap_append es1 es2 _

theorem regNames_cons_reg (k : String) (n : String) (sz : Int) (ex : Bool) (cd : Digest)
    (kr : String) (es : List Entry) :
    regNames k (Entry.reg n sz ex cd kr :: es) =
      if kr = k then n :: regNames k es else regNames k es := by
  simp only [regNames, List.filterMap_cons]
  by_cases h : kr = k <;> simp [h]

theorem regNames_cons_dir (k n : String) (es : List Entry) :
    regNames k (Entry.dir n :: es) = regNames k es := by
  simp [regNames, List.filterMap_cons]

theorem regNames_cons_symlink (k n t : String) (es : List Entry) :
    regNames k (Entry.symlink n t :: es) = regNames k es := by
  simp [regNames, List.filterMap_cons]

theorem regNames_cons_link (k n ln kl : String) (es : List Entry) :
    regNames k (Entry.link n ln kl :: es) = regNames k es := by
  simp [regNames, List.filterMap_cons]

theorem regNames_symlinkEntries (k : String) (nodes : List SymlinkNode) (dirPath : String) :
    regNames k (specSymlinkEntries nodes dirPath) = [] := by
  induction nodes with
  | nil => rfl
  | cons node rest ih => simp [specSymlinkEntries, regNames, List.filterMap_cons]

theorem seenAfter_nil (s : Seen) : seenAfter s [] = s := rfl

theorem seenAfter_cons_reg (s : Seen) (n : String) (sz : Int) (ex : Bool) (cd : Digest)
    (k : String) (es : List Entry) :
    seenAfter s (Entry.reg n sz ex cd k :: es) = seenAfter ((k, n) :: s) es := rfl

theorem seenAfter_cons_dir (s : Seen) (n : String) (es : List Entry) :
    seenAfter s (Entry.dir n :: es) = seenAfter s es := rfl

theorem seenAfter_cons_symlink (s : Seen) (n t : String) (es : List Entry) :
    seenAfter s (Entry.symlink n t :: es) = seenAfter s es := rfl

theorem seenAfter_cons_link (s : Seen) (n ln k : String) (es : List Entry) :
    seenAfter s (Entry.link n ln k :: es) = seenAfter s es := rfl

theorem seenAfter_append (s : Seen) (es1 es2 : List Entry) :
    seenAfter s (es1 ++ es2) = seenAfter (seenAfter s es1) es2 :=
  List.foldl_append _ _ es1 es2

theorem seenAfter_symlinkEntries (s : Seen) (nodes : List SymlinkNode) (dirPath : String) :
    seenAfter s (specSymlinkEntries nodes dirPath) = s := by
  induction nodes with
  | nil => rfl
  | cons node rest ih => simpa [specSymlinkEntries, seenAfter] using ih

theorem lookup_seenAfter (k v : String) (es : List Entry) :
    ∀ s : Seen, List.lookup k (seenAfter s es) = some v →
      v ∈ regNames k es ∨ List.lookup k s = some v := by
  induction es with
  | nil => intro s h; exact Or.inr h
  | cons e rest ih =>
    intro s h
    cases e with
    | reg n sz ex cd kr =>
      have h' := ih ((kr, n) :: s) h
      rw [regNames_cons_reg]
      rcases h' with h' | h'
      · by_cases hk : kr = k <;> simp [hk, h']
      · rw [lookup_cons] at h'
        by_cases hk : k = kr
        · simp [hk, if_pos hk] at h'
          simp [hk, h']
        · rw [if_neg hk] at h'
          by_cases hk2 : kr = k
          · exact absurd hk2.symm hk
          · simp [hk2]
            exact Or.inr h'
    | dir n =>
      rw [regNames_cons_dir]; exact ih s h
    | symlink n t =>
      rw [regNames_cons_symlink]; exact ih s h
    | link n ln kl =>
      rw [regNames_cons_link]; exact ih s h

theorem linkSound_append (es1 es2 : List Entry) :
    ∀ s : Seen, linkSound s (es1 ++ es2) ↔
      linkSound s es1 ∧ linkSound (seenAfter s es1) es2 := by
  induction es1 with
  | nil => intro s; simp [linkSound, seenAfter_nil]
  | cons e rest ih =>
    intro s
    cases e with
    | reg n sz ex cd kr => simpa [linkSound, seenAfter] using ih ((kr, n) :: s)
    | dir n => simpa [linkSound, seenAfter] using ih s
    | symlink n t => simpa [linkSound, seenAfter] using ih s
    | link n ln kl =>
      simp only [List.cons_append, linkSound, seenAfter_cons_link, List.append_eq]
      rw [ih s]
      tauto

theorem linkSound_symlinkEntries (s : Seen) (nodes : List SymlinkNode) (dirPath : String) :
    linkSound s (specSymlinkEntries nodes dirPath) := by
  induction nodes with
  | nil => trivial
  | cons node rest ih => simpa [specSymlinkEntries, linkSound] using ih

/-! ## The run invariant, established for each traversal phase -/

theorem runRel_nil (s : Seen) (err : Option TarErr) : RunRel s [] s err := by
  refine ⟨fun k p h => h, ?_, trivial, fun _ => rfl⟩
  simp only [regOnce]
  intro k
  cases h : List.lookup k s <;> simp [regNames_nil, h]

theorem RunRel.cons_dir {s s1 : Seen} {es : List Entry} {err : Option TarErr} (n : String)
    (h : RunRel s es s1 err) : RunRel s (Entry.dir n :: es) s1 err := by
  obtain ⟨m, r, l, f⟩ := h
  refine ⟨m, ?_, l, ?_⟩
  · simp only [regOnce] at r ⊢
    intro k
    have rk := r k
    cases h0 : List.lookup k s <;> simp only [h0] at rk ⊢ <;>
      simpa [regNames_cons_dir] using rk
  · intro he; rw [f he, seenAfter_cons_dir]

theorem RunRel.comp {s0 s1 s2 : Seen} {es1 es2 : List Entry} {err : Option TarErr}
    (h1 : RunRel s0 es1 s1 none) (h2 : RunRel s1 es2 s2 err) :
    RunRel s0 (es1 ++ es2) s2 err := by
  obtain ⟨m1, r1, l1, f1⟩ := h1
  obtain ⟨m2, r2, l2, f2⟩ := h2
  have hs1 : s1 = seenAfter s0 es1 := f1 rfl
  refine ⟨fun k p h => m2 k p (m1 k p h), ?_, ?_, ?_⟩
  · simp only [regOnce] at r1 r2 ⊢
    intro k
    have hr1 := r1 k
    have hr2 := r2 k
    cases h0 : List.lookup k s0 with
    | some p =>
      simp only [h0] at hr1 ⊢
      have h1k : List.lookup k s1 = some p := m1 k p h0
      simp only [h1k] at hr2
      simp [regNames_append, hr1, hr2]
    | none =>
      simp only [h0] at hr1 ⊢
      rcases hr1 with hr1 | ⟨hbad, _⟩
      swap
      · simp at hbad
      cases h1k : List.lookup k s1 with
      | some q =>
        simp only [h1k, Option.toList] at hr1
        simp only [h1k] at hr2
        have h2k : List.lookup k s2 = some q := m2 k q h1k
        simp [regNames_append, hr1, hr2, h2k]
      | none =>
        simp only [h1k, Option.toList] at hr1
        simp only [h1k] at hr2
        rcases hr2 with hr2 | ⟨he, hn, p, hp⟩
        · exact Or.inl (by simp [regNames_append, hr1, hr2])
        · exact Or.inr ⟨he, hn, p, by simp [regNames_append, hr1, hp]⟩
  · rw [linkSound_append]
    exact ⟨l1, hs1 ▸ l2⟩
  · intro he
    rw [seenAfter_append, f2 he, hs1]

theorem runRel_symlinks (s : Seen) (nodes : List SymlinkNode) (dirPath : String) :
    RunRel s (specSymlinkEntries nodes dirPath) s none := by
  refine ⟨fun k p h => h, ?_, linkSound_symlinkEntries s nodes dirPath,
    fun _ => (seenAfter_symlinkEntries s nodes dirPath).symm⟩
  simp only [regOnce]
  intro k
  cases h : List.lookup k s <;> simp [regNames_symlinkEntries, h]

theorem runRel_fileEntries (getBlob : Digest → Bool) (dirDigest : Digest)
    (nodes : List FileNode) (dirPath : String) :
    ∀ s : Seen,
      RunRel s (specFileEntries getBlob dirDigest nodes dirPath s).1
        (specFileEntries getBlob dirDigest nodes dirPath s).2.1
        (specFileEntries getBlob dirDigest nodes dirPath s).2.2 := by
  induction nodes with
  | nil => intro s; simpa [specFileEntries] using runRel_nil s none
  | cons node rest ih =>
    intro s
    simp only [specFileEntries]
    cases h1 : dirDigest.newDerivedDigest node.digest with
    | error e => simpa using runRel_nil s (some .invalidDigest)
    | ok childDigest =>
      simp only
      cases h2 : List.lookup (dedupKey childDigest node.isExecutable) s with
      | some linkPath =>
        rcases h3 : specFileEntries getBlob dirDigest rest dirPath s with ⟨es1, s1, err1⟩
        simp only
        have hrest := ih s
        rw [h3] at hrest
        dsimp only at hrest
        obtain ⟨m, r, l, f⟩ := hrest
        refine ⟨m, ?_, ⟨h2, l⟩, ?_⟩
        · simp only [regOnce] at r ⊢
          intro k
          have rk := r k
          cases h0 : List.lookup k s <;> simp only [h0] at rk ⊢ <;>
            simpa [regNames_cons_link] using rk
        · intro he; rw [f he, seenAfter_cons_link]
      | none =>
        cases h3 : getBlob childDigest with
        | false =>
          simp only [h3, if_neg Bool.false_ne_true]
          refine ⟨fun k p h => h, ?_, trivial, ?_⟩
          · simp only [regOnce]
            intro k
            cases h0 : List.lookup k s with
            | some p =>
              have hne : dedupKey childDigest node.isExecutable ≠ k := by
                intro hkk; rw [hkk] at h2; rw [h2] at h0; cases h0
              simp [regNames_cons_reg, hne, regNames_nil]
            | none =>
              by_cases hk : dedupKey childDigest node.isExecutable = k
              · refine Or.inr ⟨by simp, rfl, pathJoin dirPath node.name, ?_⟩
                simp [regNames_cons_reg, hk, regNames_nil]
              · simp [regNames_cons_reg, hk, regNames_nil, h0]
          · intro he; cases he
        | true =>
          simp only [h3, eq_self_iff_true, if_true]
          rcases h4 : specFileEntries getBlob dirDigest rest dirPath
              ((dedupKey childDigest node.isExecutable, pathJoin dirPath node.name) :: s) with
            ⟨es1, s1, err1⟩
          simp only
          have hrest := ih ((dedupKey childDigest node.isExecutable,
            pathJoin dirPath node.name) :: s)
          rw [h4] at hrest
          dsimp only at hrest
          obtain ⟨m, r, l, f⟩ := hrest
          have hmono : ∀ k p, List.lookup k s = some p →
              List.lookup k ((dedupKey childDigest node.isExecutable,
                pathJoin dirPath node.name) :: s) = some p := by
            intro k p h0
            rw [lookup_cons]
            by_cases hk : k = dedupKey childDigest node.isExecutable
            · rw [hk] at h0; rw [h2] at h0; cases h0
            · rw [if_neg hk]; exact h0
          refine ⟨fun k p h0 => m k p (hmono k p h0), ?_, l, ?_⟩
          · simp only [regOnce] at r ⊢
            intro k
            have rk := r k
            cases h0 : List.lookup k s with
            | some p =>
              have hne : dedupKey childDigest node.isExecutable ≠ k := by
                intro hkk; rw [hkk] at h2; rw [h2] at h0; cases h0
              have hk1 : List.lookup k ((dedupKey childDigest node.isExecutable,
                  pathJoin dirPath node.name) :: s) = some p := hmono k p h0
              simp only [hk1] at rk
              simp [regNames_cons_reg, hne, rk]
            | none =>
              by_cases hk : dedupKey childDigest node.isExecutable = k
              · have hk1 : List.lookup k ((dedupKey childDigest node.isExecutable,
                    pathJoin dirPath node.name) :: s) = some (pathJoin dirPath node.name) := by
                  rw [lookup_cons, if_pos hk.symm]
                simp only [hk1] at rk
                have hs1k : List.lookup k s1 = some (pathJoin dirPath node.name) :=
                  m k (pathJoin dirPath node.name) hk1
                refine Or.inl ?_
                simp [regNames_cons_reg, hk, rk, hs1k, Option.toList]
              · have hk1 : List.lookup k ((dedupKey childDigest node.isExecutable,
                    pathJoin dirPath node.name) :: s) = none := by
                  rw [lookup_cons, if_neg (fun hkk => hk hkk.symm)]; exact h0
                simp only [hk1] at rk
                simpa [regNames_cons_reg, hk] using rk
          · intro he; rw [f he, seenAfter_cons_reg]

theorem runRel_dirLoop (getDir : Digest → Option Directory)
    (recurS : Digest → Directory → String → Seen → List Entry × Seen × Option TarErr)
    (hrec : ∀ d dir p s, RunRel s (recurS d dir p s).1 (recurS d dir p s).2.1
      (recurS d dir p s).2.2)
    (dirDigest : Digest) (nodes : List DirectoryNode) (dirPath : String) :
    ∀ s : Seen,
      RunRel s (specDirLoop getDir recurS dirDigest nodes dirPath s).1
        (specDirLoop getDir recurS dirDigest nodes dirPath s).2.1
        (specDirLoop getDir recurS dirDigest nodes dirPath s).2.2 := by
  induction nodes with
  | nil => intro s; simpa [specDirLoop] using runRel_nil s none
  | cons node rest ih =>
    intro s
    simp only [specDirLoop]
    cases h1 : dirDigest.newDerivedDigest node.digest with
    | error e =>
      simpa using (runRel_nil s (some .invalidDigest)).cons_dir (pathJoin dirPath node.name)
    | ok childDigest =>
      simp only
      cases h2 : getDir childDigest with
      | none =>
        simpa using
          (runRel_nil s (some .directoryFetchFailed)).cons_dir (pathJoin dirPath node.name)
      | some childDirectory =>
        dsimp only
        rcases h3 : recurS childDigest childDirectory (pathJoin dirPath node.name) s with
          ⟨es1, s1, err1⟩
        have hsub := hrec childDigest childDirectory (pathJoin dirPath node.name) s
        rw [h3] at hsub
        dsimp only at hsub
        cases err1 with
        | some e =>
          dsimp only
          exact hsub.cons_dir (pathJoin dirPath node.name)
        | none =>
          rcases h4 : specDirLoop getDir recurS dirDigest rest dirPath s1 with ⟨es2, s2, err2⟩
          have hrest := ih s1
          rw [h4] at hrest
          dsimp only at hrest
          dsimp only
          rw [h4]
          dsimp only
          exact (hsub.comp hrest).cons_dir (pathJoin dirPath node.name)

theorem runRel_specDir (getDir : Digest → Option Directory) (getBlob : Digest → Bool) :
    ∀ (fuel : Nat) (dirDigest : Digest) (dir : Directory) (dirPath : String) (s : Seen),
      RunRel s (specDir getDir getBlob fuel dirDigest dir dirPath s).1
        (specDir getDir getBlob fuel dirDigest dir dirPath s).2.1
        (specDir getDir getBlob fuel dirDigest dir dirPath s).2.2 := by
  intro fuel
  induction fuel with
  | zero =>
    intro dirDigest dir dirPath s
    simpa [specDir] using runRel_nil s (some .outOfFuel)
  | succ fuel ih =>
    intro dirDigest dir dirPath s
    simp only [specDir]
    rcases h1 : specDirLoop getDir (specDir getDir getBlob fuel) dirDigest dir.directories
        dirPath s with ⟨es1, s1, err1⟩
    have hloop := runRel_dirLoop getDir (specDir getDir getBlob fuel)
      (fun d dir p s => ih d dir p s) dirDigest dir.directories dirPath s
    rw [h1] at hloop
    dsimp only at hloop
    cases err1 with
    | some e =>
      dsimp only
      exact hloop
    | none =>
      rcases h2 : specFileEntries getBlob dirDigest dir.files dirPath s1 with ⟨fes, s2, err2⟩
      have hfiles := runRel_fileEntries getBlob dirDigest dir.files dirPath s1
      rw [h2] at hfiles
      dsimp only at hfiles
      have hsyms := runRel_symlinks s1 dir.symlinks dirPath
      dsimp only
      rw [h2]
      dsimp only
      exact (hloop.comp hsyms).comp hfiles

/-! ## Consequences of the run invariant -/

theorem generateTarball_entries (getDir : Digest → Option Directory) (getBlob : Digest → Bool)
    (fuel : Nat) (dgst : Digest) (dir : Directory) :
    (generateTarball getDir getBlob fuel dgst dir).entries =
      (specDir getDir getBlob fuel dgst dir "" []).1 := by
  rw [generateTarball_eq]
  rcases h : specDir getDir getBlob fuel dgst dir "" [] with ⟨es, s1, err⟩
  cases err <;> simp [TarResult.entries]

theorem runRel_generateTarball (getDir : Digest → Option Directory) (getBlob : Digest → Bool)
    (fuel : Nat) (dgst : Digest) (dir : Directory) :
    RunRel [] (generateTarball getDir getBlob fuel dgst dir).entries
      (specDir getDir getBlob fuel dgst dir "" []).2.1
      (specDir getDir getBlob fuel dgst dir "" []).2.2 := by
  rw [generateTarball_entries]
  exact runRel_specDir getDir getBlob fuel dgst dir "" []

theorem eq_singleton_of_length_le_one {α : Type} {l : List α} {a : α}
    (h : l.length ≤ 1) (ha : a ∈ l) : l = [a] := by
  cases l with
  | nil => cases ha
  | cons x xs =>
    cases xs with
    | nil => simp only [List.mem_singleton] at ha; rw [ha]
    | cons y ys => simp at h

theorem length_le_one_of_runRel {es : List Entry} {s1 : Seen} {err : Option TarErr}
    (h : RunRel [] es s1 err) (k : String) : (regNames k es).length ≤ 1 := by
  obtain ⟨-, r, -, -⟩ := h
  simp only [regOnce] at r
  have rk := r k
  dsimp only [List.lookup] at rk
  rcases rk with rk | ⟨-, -, p, hp⟩
  · rw [rk]; cases h1 : List.lookup k s1 <;> simp [h1, Option.toList]
  · rw [hp]; simp

theorem link_first_of_runRel {es : List Entry} {s1 : Seen} {err : Option TarErr}
    (h : RunRel [] es s1 err) :
    ∀ (es1 : List Entry) (n ln k : String) (es2 : List Entry),
      es = es1 ++ Entry.link n ln k :: es2 → regNames k es1 = [ln] := by
  intro es1 n ln k es2 heq
  have hl := h.2.2.1
  rw [heq, linkSound_append] at hl
  obtain ⟨-, hl2⟩ := hl
  have hlk : List.lookup k (seenAfter [] es1) = some ln := hl2.1
  have hmem := lookup_seenAfter k ln es1 [] hlk
  rcases hmem with hmem | hmem
  · have hle : (regNames k es1).length ≤ 1 := by
      have htot := length_le_one_of_runRel h k
      rw [heq, regNames_append, List.length_append] at htot
      omega
    exact eq_singleton_of_length_le_one hle hmem
  · dsimp only [List.lookup] at hmem
    cases hmem

theorem length_one_of_key_mem {es : List Entry} {s1 : Seen} {err : Option TarErr}
    (h : RunRel [] es s1 err) {e : Entry} {k : String}
    (he : e ∈ es) (hk : e.keyOf = some k) : (regNames k es).length = 1 := by
  have hle := length_le_one_of_runRel h k
  obtain ⟨es1, es2, heq⟩ := List.append_of_mem he
  cases e with
  | dir n => cases hk
  | symlink n t => cases hk
  | reg n sz ex cd kk =>
    simp only [Entry.keyOf, Option.some_inj] at hk
    have hn : n ∈ regNames k es := by
      rw [heq, regNames_append, regNames_cons_reg, if_pos hk]
      exact List.mem_append_right _ (List.mem_cons_self n _)
    have := eq_singleton_of_length_le_one hle hn
    rw [this]
    rfl
  | link n ln kk =>
    simp only [Entry.keyOf, Option.some_inj] at hk
    have h1 := link_first_of_runRel h es1 n ln kk es2 heq
    rw [hk] at h1
    have hn : ln ∈ regNames k es := by
      rw [heq, regNames_append]
      refine List.mem_append_left _ ?_
      rw [h1]
      exact List.mem_cons_self ln []
    have := eq_singleton_of_length_le_one hle hn
    rw [this]
    rfl

/-! ## Every regular entry's key matches its content -/

theorem wellKeyed_nil : wellKeyed [] := by
  intro n sz ex cd kk hmem
  cases hmem

theorem wellKeyed_append {es1 es2 : List Entry} (h1 : wellKeyed es1) (h2 : wellKeyed es2) :
    wellKeyed (es1 ++ es2) := by
  intro n sz ex cd kk hmem
  rcases List.mem_append.mp hmem with hm | hm
  · exact h1 n sz ex cd kk hm
  · exact h2 n sz ex cd kk hm

theorem wellKeyed_cons_dir {es : List Entry} (n : String) (h : wellKeyed es) :
    wellKeyed (Entry.dir n :: es) := by
  intro m sz ex cd kk hmem
  rcases List.mem_cons.mp hmem with hm | hm
  · cases hm
  · exact h m sz ex cd kk hm

theorem wellKeyed_cons_link {es : List Entry} (n ln kl : String) (h : wellKeyed es) :
    wellKeyed (Entry.link n ln kl :: es) := by
  intro m sz ex cd kk hmem
  rcases List.mem_cons.mp hmem with hm | hm
  · cases hm
  · exact h m sz ex cd kk hm

theorem wellKeyed_symlinks (nodes : List SymlinkNode) (dirPath : String) :
    wellKeyed (specSymlinkEntries nodes dirPath) := by
  intro n sz ex cd kk hmem
  simp only [specSymlinkEntries, List.mem_map] at hmem
  obtain ⟨node, -, hnode⟩ := hmem
  cases hnode

theorem wellKeyed_fileEntries (getBlob : Digest → Bool) (dirDigest : Digest)
    (nodes : List FileNode) (dirPath : String) :
    ∀ s : Seen, wellKeyed (specFileEntries getBlob dirDigest nodes dirPath s).1 := by
  induction nodes with
  | nil => intro s; exact wellKeyed_nil
  | cons node rest ih =>
    intro s
    simp only [specFileEntries]
    cases h1 : dirDigest.newDerivedDigest node.digest with
    | error e => exact wellKeyed_nil
    | ok childDigest =>
      dsimp only
      cases h2 : List.lookup (dedupKey childDigest node.isExecutable) s with
      | some linkPath =>
        rcases h3 : specFileEntries getBlob dirDigest rest dirPath s with ⟨es1, sx, errx⟩
        dsimp only
        have := ih s
        rw [h3] at this
        exact wellKeyed_cons_link _ _ _ this
      | none =>
        cases h3 : getBlob childDigest with
        | false =>
          simp only [h3, Bool.false_eq_true, if_false]
          intro m sz ex cd kk hmem
          rcases List.mem_cons.mp hmem with hm | hm
          · cases hm; rfl
          · cases hm
        | true =>
          simp only [h3, eq_self_iff_true, if_true]
          rcases h4 : specFileEntries getBlob dirDigest rest dirPath
              ((dedupKey childDigest node.isExecutable, pathJoin dirPath node.name) :: s) with
            ⟨es1, sx, errx⟩
          dsimp only
          have := ih ((dedupKey childDigest node.isExecutable,
            pathJoin dirPath node.name) :: s)
          rw [h4] at this
          intro m sz ex cd kk hmem
          rcases List.mem_cons.mp hmem with hm | hm
          · cases hm; rfl
          · exact this m sz ex cd kk hm

theorem wellKeyed_dirLoop (getDir : Digest → Option Directory)
    (recurS : Digest → Directory → String → Seen → List Entry × Seen × Option TarErr)
    (hrec : ∀ d dir p s, wellKeyed (recurS d dir p s).1)
    (dirDigest : Digest) (nodes : List DirectoryNode) (dirPath : String) :
    ∀ s : Seen, wellKeyed (specDirLoop getDir recurS dirDigest nodes dirPath s).1 := by
  induction nodes with
  | nil => intro s; exact wellKeyed_nil
  | cons node rest ih =>
    intro s
    simp only [specDirLoop]
    cases h1 : dirDigest.newDerivedDigest node.digest with
    | error e => exact wellKeyed_cons_dir _ wellKeyed_nil
    | ok childDigest =>
      dsimp only
      cases h2 : getDir childDigest with
      | none => exact wellKeyed_cons_dir _ wellKeyed_nil
      | some childDirectory =>
        dsimp only
        rcases h3 : recurS childDigest childDirectory (pathJoin dirPath node.name) s with
          ⟨es1, sx, errx⟩
        have hsub := hrec childDigest childDirectory (pathJoin dirPath node.name) s
        rw [h3] at hsub
        dsimp only at hsub
        cases errx with
        | some e => exact wellKeyed_cons_dir _ hsub
        | none =>
          rcases h4 : specDirLoop getDir recurS dirDigest rest dirPath sx with ⟨es2, s2, err2⟩
          have hrest := ih sx
          rw [h4] at hrest
          dsimp only at hrest
          dsimp only
          rw [h4]
          dsimp only
          exact wellKeyed_cons_dir _ (wellKeyed_append hsub hrest)

theorem wellKeyed_specDir (getDir : Digest → Option Directory) (getBlob : Digest → Bool) :
    ∀ (fuel : Nat) (dirDigest : Digest) (dir : Directory) (dirPath : String) (s : Seen),
      wellKeyed (specDir getDir getBlob fuel dirDigest dir dirPath s).1 := by
  intro fuel
  induction fuel with
  | zero => intro dirDigest dir dirPath s; exact wellKeyed_nil
  | succ fuel ih =>
    intro dirDigest dir dirPath s
    simp only [specDir]
    rcases h1 : specDirLoop getDir (specDir getDir getBlob fuel) dirDigest dir.directories
        dirPath s with ⟨es1, s1, err1⟩
    have hloop := wellKeyed_dirLoop getDir (specDir getDir getBlob fuel)
      (fun d dir p s => ih d dir p s) dirDigest dir.directories dirPath s
    rw [h1] at hloop
    dsimp only at hloop
    cases err1 with
    | some e => exact hloop
    | none =>
      rcases h2 : specFileEntries getBlob dirDigest dir.files dirPath s1 with ⟨fes, s2, err2⟩
      have hfiles := wellKeyed_fileEntries getBlob dirDigest dir.files dirPath s1
      rw [h2] at hfiles
      dsimp only at hfiles
      dsimp only
      rw [h2]
      dsimp only
      exact wellKeyed_append (wellKeyed_append hloop (wellKeyed_symlinks dir.symlinks dirPath))
        hfiles

theorem wellKeyed_generateTarball (getDir : Digest → Option Directory) (getBlob : Digest → Bool)
    (fuel : Nat) (dgst : Digest) (dir : Directory) :
    wellKeyed (generateTarball getDir getBlob fuel dgst dir).entries := by
  rw [generateTarball_entries]
  exact wellKeyed_specDir getDir getBlob fuel dgst dir "" []

/-! ## Sequencing of the child-directory and file loops -/

theorem genDirLoop_append (getDir : Digest → Option Directory)
    (recur : Digest → Directory → String → GenState → GenState × Option TarErr)
    (dgst : Digest) (l1 l2 : List DirectoryNode) (dirPath : String) :
    ∀ st, genDirLoop getDir recur dgst (l1 ++ l2) dirPath st =
      match genDirLoop getDir recur dgst l1 dirPath st with
      | (st1, some e) => (st1, some e)
      | (st1, none) => genDirLoop getDir recur dgst l2 dirPath st1 := by
  induction l1 with
  | nil => intro st; simp [genDirLoop]
  | cons node rest ih =>
    intro st
    simp only [List.cons_append, genDirLoop]
    cases h1 : dgst.newDerivedDigest node.digest with
    | error e => rfl
    | ok cd =>
      dsimp only
      cases h2 : getDir cd with
      | none => rfl
      | some cdir =>
        dsimp only
        rcases h3 : recur cd cdir (pathJoin dirPath node.name)
            { st with entries := st.entries ++ [.dir (pathJoin dirPath node.name)] } with
          ⟨st2, err2⟩
        cases err2 with
        | some e => rfl
        | none => exact ih st2

theorem genFileLoop_append (getBlob : Digest → Bool) (dgst : Digest)
    (l1 l2 : List FileNode) (dirPath : String) :
    ∀ st, genFileLoop getBlob dgst (l1 ++ l2) dirPath st =
      match genFileLoop getBlob dgst l1 dirPath st with
      | (st1, some e) => (st1, some e)
      | (st1, none) => genFileLoop getBlob dgst l2 dirPath st1 := by
  induction l1 with
  | nil => intro st; simp [genFileLoop]
  | cons node rest ih =>
    intro st
    simp only [List.cons_append, genFileLoop]
    cases h1 : dgst.newDerivedDigest node.digest with
    | error e => rfl
    | ok cd =>
      dsimp only
      cases h2 : st.filesSeen.lookup (dedupKey cd node.isExecutable) with
      | some linkPath => exact ih _
      | none =>
        dsimp only
        cases h3 : getBlob cd with
        | false => simp only [h3, Bool.false_eq_true, if_false]
        | true => simp only [h3, eq_self_iff_true, if_true]; exact ih _

/-! ## Fuel exhaustion lemmas -/

theorem genFileLoop_no_fuel_err (getBlob : Digest → Bool) (dgst : Digest)
    (nodes : List FileNode) (dirPath : String) :
    ∀ st, (genFileLoop getBlob dgst nodes dirPath st).2 ≠ some .outOfFuel := by
  induction nodes with
  | nil => intro st h; cases h
  | cons node rest ih =>
    intro st
    simp only [genFileLoop]
    cases h1 : dgst.newDerivedDigest node.digest with
    | error e => simp
    | ok cd =>
      dsimp only
      cases h2 : st.filesSeen.lookup (dedupKey cd node.isExecutable) with
      | some linkPath => exact ih _
      | none =>
        dsimp only
        cases h3 : getBlob cd with
        | false => simp [h3]
        | true => simp only [h3, eq_self_iff_true, if_true]; exact ih _

theorem genDirLoop_no_fuel_err (getDir : Digest → Option Directory)
    (recur : Digest → Directory → String → GenState → GenState × Option TarErr)
    (dgst : Digest) (nodes : List DirectoryNode) (dirPath : String)
    (hrec : ∀ node ∈ nodes, ∀ cd, dgst.newDerivedDigest node.digest = .ok cd →
      ∀ cdir, getDir cd = some cdir →
      ∀ st, (recur cd cdir (pathJoin dirPath node.name) st).2 ≠ some .outOfFuel) :
    ∀ st, (genDirLoop getDir recur dgst nodes dirPath st).2 ≠ some .outOfFuel := by
  induction nodes with
  | nil => intro st h; cases h
  | cons node rest ih =>
    intro st
    simp only [genDirLoop]
    cases h1 : dgst.newDerivedDigest node.digest with
    | error e => simp
    | ok cd =>
      dsimp only
      cases h2 : getDir cd with
      | none => simp
      | some cdir =>
        dsimp only
        rcases h3 : recur cd cdir (pathJoin dirPath node.name)
            { st with entries := st.entries ++ [.dir (pathJoin dirPath node.name)] } with
          ⟨st2, err2⟩
        cases err2 with
        | some e =>
          have := hrec node (List.mem_cons_self node rest) cd h1 cdir h2
            { st with entries := st.entries ++ [.dir (pathJoin dirPath node.name)] }
          rw [h3] at this
          exact this
        | none =>
          exact ih (fun n hn => hrec n (List.mem_cons_of_mem node hn)) st2

theorem genDir_acyclic_no_fuel_err (getDir : Digest → Option Directory)
    (getBlob : Digest → Bool) (R : Digest → Prop) (rank : Digest → Nat)
    (hR : ∀ d, R d → ∀ dir', getDir d = some dir' → ∀ node ∈ dir'.directories, ∀ cd,
      d.newDerivedDigest node.digest = .ok cd → R cd ∧ rank cd < rank d) :
    ∀ (fuel : Nat) (dgst : Digest) (dir : Directory),
      (∀ node ∈ dir.directories, ∀ cd, dgst.newDerivedDigest node.digest = .ok cd →
        R cd ∧ rank cd < rank dgst) →
      rank dgst < fuel →
      ∀ (dirPath : String) (st : GenState),
        (genDir getDir getBlob fuel dgst dir dirPath st).2 ≠ some .outOfFuel := by
  intro fuel
  induction fuel with
  | zero => intro dgst dir hroot hlt; exact absurd hlt (Nat.not_lt_zero _)
  | succ fuel ih =>
    intro dgst dir hroot hlt dirPath st
    simp only [genDir]
    have hrec : ∀ node ∈ dir.directories, ∀ cd,
        dgst.newDerivedDigest node.digest = .ok cd → ∀ cdir, getDir cd = some cdir →
        ∀ st', (genDir getDir getBlob fuel cd cdir (pathJoin dirPath node.name) st').2 ≠
          some .outOfFuel := by
      intro node hn cd hcd cdir hcdir st'
      obtain ⟨hRcd, hrank⟩ := hroot node hn cd hcd
      refine ih cd cdir ?_ (by omega) (pathJoin dirPath node.name) st'
      intro n2 hn2 cd2 hcd2
      exact hR cd hRcd cdir hcdir n2 hn2 cd2 hcd2
    have hloop := genDirLoop_no_fuel_err getDir (genDir getDir getBlob fuel) dgst
      dir.directories dirPath hrec
    rcases h1 : genDirLoop getDir (genDir getDir getBlob fuel) dgst dir.directories dirPath st
      with ⟨st1, err1⟩
    have hloop1 := hloop st
    rw [h1] at hloop1
    cases err1 with
    | some e => exact hloop1
    | none =>
      dsimp only
      exact genFileLoop_no_fuel_err getBlob dgst dir.files dirPath _

theorem cycle_exhausts_any_fuel (getBlob : Digest → Bool) :
    ∀ (fuel : Nat) (dgst : Digest) (dirPath : String) (st : GenState),
      (genDir cycleGetDir getBlob fuel dgst cycleDir dirPath st).2 = some .outOfFuel := by
  intro fuel
  induction fuel with
  | zero => intro dgst dirPath st; rfl
  | succ fuel ih =>
    intro dgst dirPath st
    have hderive : dgst.newDerivedDigest ⟨"self", 0⟩ =
        .ok ⟨dgst.instanceName, "self", 0⟩ := by
      simp [Digest.newDerivedDigest]
    have hcd : cycleDir.directories = [⟨"loop", ⟨"self", 0⟩⟩] := rfl
    simp only [genDir, hcd, genDirLoop, hderive, cycleGetDir]
    rcases h2 : genDir cycleGetDir getBlob fuel ⟨dgst.instanceName, "self", 0⟩ cycleDir
        (pathJoin dirPath "loop")
        { st with entries := st.entries ++ [.dir (pathJoin dirPath "loop")] } with
      ⟨st2, err2⟩
    have hrec := ih ⟨dgst.instanceName, "self", 0⟩ (pathJoin dirPath "loop")
      { st with entries := st.entries ++ [.dir (pathJoin dirPath "loop")] }
    rw [h2] at hrec
    dsimp only at hrec
    rw [hrec]

/-! ## Claims -/

/-- C1: In every archive produced by a materialization, each dedup key
(content digest without namespace plus executable bit) has at most one
regular-file entry; if any file entry (regular or hardlink) for that key
was emitted, it has exactly one regular-file entry carrying the content;
every hardlink entry's link name is the path of the unique earlier
regular-file entry with the same key; and the key of every regular entry
is indeed computed from its content digest without namespace and its
executable bit. -/
theorem c1_content_dedup (getDir : Digest → Option Directory) (getBlob : Digest → Bool)
    (fuel : Nat) (dgst : Digest) (dir : Directory) (k : String) :
    (regNames k (generateTarball getDir getBlob fuel dgst dir).entries).length ≤ 1 ∧
    ((∃ e ∈ (generateTarball getDir getBlob fuel dgst dir).entries, e.keyOf = some k) →
      (regNames k (generateTarball getDir getBlob fuel dgst dir).entries).length = 1) ∧
    (∀ (es1 : List Entry) (n ln : String) (es2 : List Entry),
      (generateTarball getDir getBlob fuel dgst dir).entries =
        es1 ++ Entry.link n ln k :: es2 →
      regNames k es1 = [ln]) ∧
    (∀ n sz ex cd kk,
      Entry.reg n sz ex cd kk ∈ (generateTarball getDir getBlob fuel dgst dir).entries →
      kk = dedupKey cd ex) := by
  have h := runRel_generateTarball getDir getBlob fuel dgst dir
  refine ⟨length_le_one_of_runRel h k, ?_, ?_,
    wellKeyed_generateTarball getDir getBlob fuel dgst dir⟩
  · rintro ⟨e, he, hk⟩
    exact length_one_of_key_mem h he hk
  · intro es1 n ln es2 heq
    exact link_first_of_runRel h es1 n ln k es2 heq

theorem c1_content_dedup_witness :
    ((∃ e ∈ (generateTarball (fun _ => none) (fun _ => true) 1 sampleDigest
        sampleDupDir).entries, e.keyOf = some "aa-3-x") ∧
      (regNames "aa-3-x" (generateTarball (fun _ => none) (fun _ => true) 1 sampleDigest
        sampleDupDir).entries).length = 1) ∧
    regNames "aa-3-x" [Entry.reg "a" 3 false ⟨"inst", "aa", 3⟩ "aa-3-x"] = ["a"] :=
  ⟨⟨by decide,
      (c1_content_dedup (fun _ => none) (fun _ => true) 1 sampleDigest sampleDupDir
        "aa-3-x").2.1 (by decide)⟩,
    (c1_content_dedup (fun _ => none) (fun _ => true) 1 sampleDigest sampleDupDir
        "aa-3-x").2.2.1
      [Entry.reg "a" 3 false ⟨"inst", "aa", 3⟩ "aa-3-x"] "b" "a" [] (by decide)⟩

/-- C9: Resolving a log whose digest records content size zero performs no
backend fetch and reports the log as absent (`none`, not an error). -/
theorem c9_zero_size_log (get : Digest → BlobGetResult) (render : List Nat → List Nat)
    (name : String) (dgst : Digest) (h : dgst.sizeBytes = 0) :
    getLogInfoForDigest get render name dgst = (.ok none, false) := by
  simp [getLogInfoForDigest, h]

theorem c9_zero_size_log_witness :
    (⟨"i", "h", 0⟩ : Digest).sizeBytes = 0 ∧
    getLogInfoForDigest (fun _ => .otherErr) id "log" ⟨"i", "h", 0⟩ = (.ok none, false) :=
  ⟨rfl, c9_zero_size_log (fun _ => .otherErr) id "log" ⟨"i", "h", 0⟩ rfl⟩

/-- C7: A relative path that splits into no components (the empty string,
a single slash, or any string of only slashes) resolves to the bundle's
root digest and root directory unchanged. -/
theorem c7_empty_path_returns_root :
    (∀ (marshal : Directory → List Nat) (hashBytes : List Nat → String)
      (treeDigest : Digest) (tree : Tree) (relativePath : String),
      splitPathComponents relativePath = [] →
      resolvePath marshal hashBytes treeDigest tree relativePath =
        .ok (treeDigest, tree.root)) ∧
    (∀ s : String, (∀ c ∈ s.data, c = '/') → splitPathComponents s = []) := by
  constructor
  · intro marshal hashBytes treeDigest tree relativePath h
    unfold resolvePath
    rw [h]
    rfl
  · intro s hs
    unfold splitPathComponents
    have : ∀ cs : List Char, (∀ c ∈ cs, c = '/') → splitSlashAux cs [] = [] := by
      intro cs
      induction cs with
      | nil => intro _; rfl
      | cons c rest ih =>
        intro hall
        have hc : c = '/' := hall c (List.mem_cons_self c rest)
        rw [splitSlashAux, if_pos hc]
        exact ih (fun x hx => hall x (List.mem_cons_of_mem c hx))
    exact this s.data hs

theorem c7_empty_path_returns_root_witness :
    splitPathComponents "//" = [] ∧
    resolvePath (fun _ => []) (fun _ => "") sampleDigest ⟨⟨[], [], []⟩, []⟩ "/" =
      .ok (sampleDigest, (⟨[], [], []⟩ : Directory)) :=
  ⟨c7_empty_path_returns_root.2 "//" (by decide),
    c7_empty_path_returns_root.1 (fun _ => []) (fun _ => "") sampleDigest ⟨⟨[], [], []⟩, []⟩
      "/" (by decide)⟩

/-- C2: During path resolution, a component matching no child
`DirectoryNode` name fails with the subdirectory-not-found error; a
component matching a child whose derived digest is absent from the
flattened children map fails with the distinct inconsistent-bundle error;
the two error values are different. -/
theorem c2_error_classes (childrenMap : List (String × Directory)) (component : String)
    (rest : List String) (dgst : Digest) (dir : Directory) :
    (dir.directories.find? (fun node => component = node.name) = none →
      resolveComponents childrenMap (component :: rest) dgst dir =
        .error .subdirectoryNotFound) ∧
    (∀ node, dir.directories.find? (fun node => component = node.name) = some node →
      ∀ childDigest, dgst.newDerivedDigest node.digest = .ok childDigest →
      childrenMap.lookup childDigest.keyWithoutInstance = none →
      resolveComponents childrenMap (component :: rest) dgst dir =
        .error .inconsistentBundle) ∧
    ResolveErr.subdirectoryNotFound ≠ ResolveErr.inconsistentBundle := by
  refine ⟨?_, ?_, by decide⟩
  · intro h
    simp [resolveComponents, h]
  · intro node hfind childDigest hderive hlookup
    simp [resolveComponents, hfind, hderive, hlookup]

theorem c2_error_classes_witness :
    resolveComponents [] ["x"] sampleDigest ⟨[], [], []⟩ = .error .subdirectoryNotFound ∧
    resolveComponents [] ["x"] sampleDigest ⟨[⟨"x", ⟨"cc", 1⟩⟩], [], []⟩ =
      .error .inconsistentBundle :=
  ⟨(c2_error_classes [] "x" [] sampleDigest ⟨[], [], []⟩).1 (by decide),
    (c2_error_classes [] "x" [] sampleDigest ⟨[⟨"x", ⟨"cc", 1⟩⟩], [], []⟩).2.1
      ⟨"x", ⟨"cc", 1⟩⟩ (by decide) ⟨"inst", "cc", 1⟩ (by decide) (by decide)⟩

/-- C10: Path resolution matches components only against DirectoryNodes:
when no DirectoryNode has the component's name, the result is the
subdirectory-not-found error, regardless of any FileNode or SymlinkNode of
that name in the same directory. -/
theorem c10_only_directory_nodes_match (childrenMap : List (String × Directory))
    (component : String) (rest : List String) (dgst : Digest)
    (dirs : List DirectoryNode) (fs : List FileNode) (ls : List SymlinkNode)
    (h : ∀ node ∈ dirs, node.name ≠ component) :
    resolveComponents childrenMap (component :: rest) dgst ⟨dirs, fs, ls⟩ =
      .error .subdirectoryNotFound := by
  have hf : dirs.find? (fun node => component = node.name) = none := by
    rw [List.find?_eq_none]
    intro node hn
    simp only [decide_eq_true_eq]
    exact fun hc => h node hn hc.symm
  simp [resolveComponents, hf]

theorem c10_only_directory_nodes_match_witness :
    resolveComponents [] ["x"] sampleDigest
        ⟨[⟨"d", ⟨"cc", 1⟩⟩], [⟨"x", ⟨"aa", 3⟩, false⟩], [⟨"x", "t"⟩]⟩ =
      .error .subdirectoryNotFound :=
  c10_only_directory_nodes_match [] "x" [] sampleDigest
    [⟨"d", ⟨"cc", 1⟩⟩] [⟨"x", ⟨"aa", 3⟩, false⟩] [⟨"x", "t"⟩] (by decide)

/-- C3: The flattened index is keyed by the digest (hash of the serialized
descendant, plus its byte count) without namespace; for a bundle whose
root references digest `Dc` under the name `"sub"` and whose children list
holds a directory `c` that serializes and hashes to `Dc`, resolving
`"sub"` returns the derived digest together with `c`. -/
theorem c3_serialized_hash_lookup (marshal : Directory → List Nat)
    (hashBytes : List Nat → String) (treeDigest : Digest) (r : REDigest) (c : Directory)
    (fs : List FileNode) (ls : List SymlinkNode)
    (hhash : hashBytes (marshal c) = r.hash)
    (hsize : ((marshal c).length : Int) = r.sizeBytes)
    (hne : r.hash ≠ "") :
    resolvePath marshal hashBytes treeDigest ⟨⟨[⟨"sub", r⟩], fs, ls⟩, [c]⟩ "sub" =
      .ok (⟨treeDigest.instanceName, r.hash, r.sizeBytes⟩, c) := by
  have hnn : ¬r.sizeBytes < 0 := by
    rw [← hsize]
    exact not_lt.mpr (Int.natCast_nonneg _)
  have hderive : treeDigest.newDerivedDigest r =
      .ok ⟨treeDigest.instanceName, r.hash, r.sizeBytes⟩ := by
    simp [Digest.newDerivedDigest, hne, hnn]
  have hkey : Digest.keyWithoutInstance ⟨"", (childDigestOf marshal hashBytes c).hash,
      (childDigestOf marshal hashBytes c).sizeBytes⟩ =
      Digest.keyWithoutInstance ⟨treeDigest.instanceName, r.hash, r.sizeBytes⟩ := by
    simp [Digest.keyWithoutInstance, childDigestOf, hhash, hsize]
  unfold resolvePath
  have hsplit : splitPathComponents "sub" = ["sub"] := rfl
  rw [hsplit]
  simp [resolveComponents, buildChildren, hderive, lookup_cons, hkey]

theorem c3_serialized_hash_lookup_witness :
    resolvePath (fun _ => [1, 2, 3]) (fun _ => "cc") sampleDigest
        ⟨⟨[⟨"sub", ⟨"cc", 3⟩⟩], [], []⟩, [⟨[], [⟨"f", ⟨"ff", 1⟩, false⟩], []⟩]⟩ "sub" =
      .ok (⟨"inst", "cc", 3⟩, ⟨[], [⟨"f", ⟨"ff", 1⟩, false⟩], []⟩) :=
  c3_serialized_hash_lookup (fun _ => [1, 2, 3]) (fun _ => "cc") sampleDigest ⟨"cc", 3⟩
    ⟨[], [⟨"f", ⟨"ff", 1⟩, false⟩], []⟩ [] [] rfl rfl (by decide)

/-- C6: Two file nodes with the same content digest but different
executable bits have different dedup keys, and a directory holding exactly
those two files materializes them as two independent regular-file entries
(no hardlink). -/
theorem c6_exec_bit_distinct_keys (getDir : Digest → Option Directory) (fuel : Nat)
    (dgst : Digest) (n1 n2 : String) (r : REDigest)
    (hne : r.hash ≠ "") (hnn : ¬r.sizeBytes < 0) :
    (∀ d : Digest, dedupKey d true ≠ dedupKey d false) ∧
    generateTarball getDir (fun _ => true) (fuel + 1) dgst
        ⟨[], [⟨n1, r, false⟩, ⟨n2, r, true⟩], []⟩ =
      .complete
        [Entry.reg n1 r.sizeBytes false ⟨dgst.instanceName, r.hash, r.sizeBytes⟩
            (dedupKey ⟨dgst.instanceName, r.hash, r.sizeBytes⟩ false),
          Entry.reg n2 r.sizeBytes true ⟨dgst.instanceName, r.hash, r.sizeBytes⟩
            (dedupKey ⟨dgst.instanceName, r.hash, r.sizeBytes⟩ true)] := by
  have hkeys : ∀ d : Digest, dedupKey d true ≠ dedupKey d false := by
    intro d h
    simp only [dedupKey, if_pos, if_neg] at h
    have hd := congrArg String.data h
    simp only [String.data_append] at hd
    have := List.append_cancel_left hd
    simp [String.data] at this
  refine ⟨hkeys, ?_⟩
  have hderive : dgst.newDerivedDigest r =
      .ok ⟨dgst.instanceName, r.hash, r.sizeBytes⟩ := by
    simp [Digest.newDerivedDigest, hne, hnn]
  simp only [generateTarball, genDir, genDirLoop, genSymlinkLoop, genFileLoop, hderive]
  rw [lookup_cons,
    if_neg (hkeys ⟨dgst.instanceName, r.hash, r.sizeBytes⟩)]
  simp [pathJoin]

theorem c6_exec_bit_distinct_keys_witness :
    dedupKey ⟨"inst", "aa", 3⟩ true ≠ dedupKey ⟨"inst", "aa", 3⟩ false ∧
    generateTarball (fun _ => none) (fun _ => true) 1 sampleDigest sampleMixedDir =
      .complete
        [Entry.reg "a" 3 false ⟨"inst", "aa", 3⟩ (dedupKey ⟨"inst", "aa", 3⟩ false),
          Entry.reg "b" 3 true ⟨"inst", "aa", 3⟩ (dedupKey ⟨"inst", "aa", 3⟩ true)] :=
  ⟨(c6_exec_bit_distinct_keys (fun _ => none) 0 sampleDigest "a" "b" ⟨"aa", 3⟩
      (by decide) (by decide)).1 ⟨"inst", "aa", 3⟩,
    (c6_exec_bit_distinct_keys (fun _ => none) 0 sampleDigest "a" "b" ⟨"aa", 3⟩
      (by decide) (by decide)).2⟩

/-- C4: The implementation emits entries exactly in the pre-order
depth-first source order described by the spec-side model `specDir` (root
never emitted; each child directory's entry immediately followed by its
subtree; then one verbatim symlink entry per symlink node; then the file
entries under deduplication); concretely, a root with one child directory
`"x"` containing only the symlink `y -> ../z` produces exactly the
directory entry `"x"` followed by the symlink entry `"x/y"` with target
`"../z"`. -/
theorem c4_preorder_emission (getDir : Digest → Option Directory) (getBlob : Digest → Bool) :
    (∀ (fuel : Nat) (dgst : Digest) (dir : Directory) (dirPath : String) (seen : Seen),
      genDir getDir getBlob fuel dgst dir dirPath ⟨[], seen⟩ =
        (⟨(specDir getDir getBlob fuel dgst dir dirPath seen).1,
          (specDir getDir getBlob fuel dgst dir dirPath seen).2.1⟩,
         (specDir getDir getBlob fuel dgst dir dirPath seen).2.2)) ∧
    generateTarball (fun _ => some ⟨[], [], [⟨"y", "../z"⟩]⟩) (fun _ => true) 2 sampleDigest
        ⟨[⟨"x", ⟨"cc", 1⟩⟩], [], []⟩ =
      .complete [Entry.dir "x", Entry.symlink "x/y" "../z"] := by
  constructor
  · intro fuel dgst dir dirPath seen
    simpa using genDir_eq getDir getBlob fuel dgst dir dirPath [] seen
  · rfl

/-- C5: Any error during traversal makes `generateTarball` abort the
stream abnormally with exactly the entries emitted so far (never a
well-formed completed archive); when fetching the directory of one child
fails, the result is identical to the run on the directory truncated right
after that child (later siblings, symlinks and files of the directory are
never emitted); and likewise when reading one file's blob fails, the later
files are never emitted. -/
theorem c5_failure_aborts :
    (∀ (getDir : Digest → Option Directory) (getBlob : Digest → Bool) (fuel : Nat)
      (dgst : Digest) (dir : Directory) (st : GenState) (e : TarErr),
      genDir getDir getBlob fuel dgst dir "" ⟨[], []⟩ = (st, some e) →
      generateTarball getDir getBlob fuel dgst dir = .aborted st.entries) ∧
    (∀ (getDir : Digest → Option Directory) (getBlob : Digest → Bool) (fuel : Nat)
      (dgst : Digest) (ds1 : List DirectoryNode) (node : DirectoryNode)
      (ds2 : List DirectoryNode) (fs : List FileNode) (ls : List SymlinkNode)
      (dirPath : String) (st st1 : GenState) (cd : Digest),
      genDirLoop getDir (genDir getDir getBlob fuel) dgst ds1 dirPath st = (st1, none) →
      dgst.newDerivedDigest node.digest = .ok cd →
      getDir cd = none →
      genDir getDir getBlob (fuel + 1) dgst ⟨ds1 ++ node :: ds2, fs, ls⟩ dirPath st =
          genDir getDir getBlob (fuel + 1) dgst ⟨ds1 ++ [node], [], []⟩ dirPath st ∧
        (genDir getDir getBlob (fuel + 1) dgst ⟨ds1 ++ node :: ds2, fs, ls⟩ dirPath st).2 =
          some .directoryFetchFailed) ∧
    (∀ (getBlob : Digest → Bool) (dgst : Digest) (fs1 : List FileNode) (node : FileNode)
      (fs2 : List FileNode) (dirPath : String) (st st1 : GenState) (cd : Digest),
      genFileLoop getBlob dgst fs1 dirPath st = (st1, none) →
      dgst.newDerivedDigest node.digest = .ok cd →
      st1.filesSeen.lookup (dedupKey cd node.isExecutable) = none →
      getBlob cd = false →
      genFileLoop getBlob dgst (fs1 ++ node :: fs2) dirPath st =
          genFileLoop getBlob dgst (fs1 ++ [node]) dirPath st ∧
        (genFileLoop getBlob dgst (fs1 ++ node :: fs2) dirPath st).2 =
          some .blobFetchFailed) := by
  refine ⟨?_, ?_, ?_⟩
  · intro getDir getBlob fuel dgst dir st e h
    simp [generateTarball, h]
  · intro getDir getBlob fuel dgst ds1 node ds2 fs ls dirPath st st1 cd h1 hcd hfetch
    have hstep : ∀ tail : List DirectoryNode,
        genDirLoop getDir (genDir getDir getBlob fuel) dgst (ds1 ++ node :: tail) dirPath st =
          ({ st1 with entries := st1.entries ++ [.dir (pathJoin dirPath node.name)] },
            some .directoryFetchFailed) := by
      intro tail
      rw [genDirLoop_append, h1]
      simp only [genDirLoop, hcd, hfetch]
    have hd1 : Directory.directories ⟨ds1 ++ node :: ds2, fs, ls⟩ = ds1 ++ node :: ds2 := rfl
    have hd2 : Directory.directories ⟨ds1 ++ [node], [], []⟩ = ds1 ++ node :: [] := rfl
    constructor
    · simp only [genDir, hd1, hd2, hstep]
    · simp only [genDir, hd1, hstep]
  · intro getBlob dgst fs1 node fs2 dirPath st st1 cd h1 hcd hseen hblob
    have hstep : ∀ tail : List FileNode,
        genFileLoop getBlob dgst (fs1 ++ node :: tail) dirPath st =
          ({ st1 with entries := st1.entries ++
              [.reg (pathJoin dirPath node.name) node.digest.sizeBytes node.isExecutable cd
                (dedupKey cd node.isExecutable)] },
            some .blobFetchFailed) := by
      intro tail
      rw [genFileLoop_append, h1]
      simp only [genFileLoop, hcd, hseen, hblob, Bool.false_eq_true, if_false]
    constructor
    · rw [hstep fs2, hstep []]
    · rw [hstep fs2]

theorem c5_failure_aborts_witness :
    generateTarball (fun _ => none) (fun _ => true) 1 sampleDigest
        ⟨[⟨"x", ⟨"cc", 1⟩⟩], [], []⟩ = .aborted [Entry.dir "x"] ∧
    (genDir (fun _ => none) (fun _ => true) 1 sampleDigest
        ⟨[⟨"x", ⟨"cc", 1⟩⟩, ⟨"y", ⟨"dd", 1⟩⟩], [⟨"f", ⟨"ee", 1⟩, false⟩], [⟨"s", "t"⟩]⟩
        "" ⟨[], []⟩ =
      genDir (fun _ => none) (fun _ => true) 1 sampleDigest
        ⟨[⟨"x", ⟨"cc", 1⟩⟩], [], []⟩ "" ⟨[], []⟩ ∧
      (genDir (fun _ => none) (fun _ => true) 1 sampleDigest
        ⟨[⟨"x", ⟨"cc", 1⟩⟩, ⟨"y", ⟨"dd", 1⟩⟩], [⟨"f", ⟨"ee", 1⟩, false⟩], [⟨"s", "t"⟩]⟩
        "" ⟨[], []⟩).2 = some .directoryFetchFailed) ∧
    (genFileLoop (fun _ => false) sampleDigest
        [⟨"f", ⟨"aa", 3⟩, false⟩, ⟨"g", ⟨"bb", 1⟩, false⟩] "" ⟨[], []⟩ =
      genFileLoop (fun _ => false) sampleDigest [⟨"f", ⟨"aa", 3⟩, false⟩] "" ⟨[], []⟩ ∧
      (genFileLoop (fun _ => false) sampleDigest
        [⟨"f", ⟨"aa", 3⟩, false⟩, ⟨"g", ⟨"bb", 1⟩, false⟩] "" ⟨[], []⟩).2 =
        some .blobFetchFailed) :=
  ⟨c5_failure_aborts.1 (fun _ => none) (fun _ => true) 1 sampleDigest
      ⟨[⟨"x", ⟨"cc", 1⟩⟩], [], []⟩ ⟨[Entry.dir "x"], []⟩ .directoryFetchFailed (by decide),
    c5_failure_aborts.2.1 (fun _ => none) (fun _ => true) 0 sampleDigest []
      ⟨"x", ⟨"cc", 1⟩⟩ [⟨"y", ⟨"dd", 1⟩⟩] [⟨"f", ⟨"ee", 1⟩, false⟩] [⟨"s", "t"⟩] ""
      ⟨[], []⟩ ⟨[], []⟩ ⟨"inst", "cc", 1⟩ rfl (by decide) rfl,
    c5_failure_aborts.2.2 (fun _ => false) sampleDigest [] ⟨"f", ⟨"aa", 3⟩, false⟩
      [⟨"g", ⟨"bb", 1⟩, false⟩] "" ⟨[], []⟩ ⟨[], []⟩ ⟨"inst", "aa", 3⟩ rfl (by decide)
      rfl rfl⟩

/-- C8: The recursive materialization terminates whenever the digest graph
reachable through the fetch capability admits a decreasing rank (a witness
of finiteness and acyclicity): fuel beyond the root's rank is never
exhausted. By contrast, for the self-referencing fetch capability
`cycleGetDir` every fuel bound whatsoever is exhausted: the Go code, which
has no depth bound and no cycle detection, would recurse forever. -/
theorem c8_unbounded_recursion :
    (∀ (getDir : Digest → Option Directory) (getBlob : Digest → Bool) (R : Digest → Prop)
      (rank : Digest → Nat),
      (∀ d, R d → ∀ dir', getDir d = some dir' → ∀ node ∈ dir'.directories, ∀ cd,
        d.newDerivedDigest node.digest = .ok cd → R cd ∧ rank cd < rank d) →
      ∀ (fuel : Nat) (dgst : Digest) (dir : Directory),
        (∀ node ∈ dir.directories, ∀ cd, dgst.newDerivedDigest node.digest = .ok cd →
          R cd ∧ rank cd < rank dgst) →
        rank dgst < fuel →
        ∀ (dirPath : String) (st : GenState),
          (genDir getDir getBlob fuel dgst dir dirPath st).2 ≠ some .outOfFuel) ∧
    (∀ (getBlob : Digest → Bool) (fuel : Nat) (dgst : Digest) (dirPath : String)
      (st : GenState),
      (genDir cycleGetDir getBlob fuel dgst cycleDir dirPath st).2 = some .outOfFuel) :=
  ⟨genDir_acyclic_no_fuel_err, cycle_exhausts_any_fuel⟩

theorem c8_unbounded_recursion_witness :
    (genDir (fun _ => none) (fun _ => true) 1 sampleDigest ⟨[], [], []⟩ "" ⟨[], []⟩).2 ≠
      some TarErr.outOfFuel ∧
    (genDir cycleGetDir (fun _ => true) 3 sampleDigest cycleDir "" ⟨[], []⟩).2 =
      some TarErr.outOfFuel :=
  ⟨c8_unbounded_recursion.1 (fun _ => none) (fun _ => true) (fun _ => True) (fun _ => 0)
      (fun d _ dir' h => by cases h) 1 sampleDigest ⟨[], [], []⟩
      (fun node hn => by cases hn) (by decide) "" ⟨[], []⟩,
    c8_unbounded_recursion.2 (fun _ => true) 3 sampleDigest "" ⟨[], []⟩⟩

end BBBrowser
